import Mathlib

/-!
Verification of the InvisioVault core engine (src/invisiovault.py).

The development shallowly embeds the pure core of the program:

* byte/bit codecs used by the steganography engine
  (`int.to_bytes` / `int.from_bytes` big-endian, LSB-first bit expansion);
* `SteganographyEngine.can_hide_data`, `hide_data_in_image`,
  `extract_data_from_image` (lines 126-251), over an explicit RGB image
  value (the PIL/numpy pixel grid becomes a row-major list of 3-channel
  pixels; the `img.convert('RGB')` precondition becomes the `WF`
  wellformedness predicate);
* `SteganographyEngine.encrypt_data` / `decrypt_data` (lines 50-80).
  The AES block cipher and the PBKDF2 key derivation are external
  library collaborators, so they appear as abstract function parameters;
  the envelope layout, the CBC chaining and the PKCS#7 pad/unpad of the
  library are embedded concretely.  The randomness of `os.urandom`
  becomes explicit `salt` / `iv` arguments;
* the archive pack loop of `WorkerThread._hide_files` (lines 293-297)
  and the unpack loop of `WorkerThread._extract_files` (lines 348-392),
  with `json.dumps` / `json.loads` of the metadata abstracted as a
  `dumps` / `loads` parameter pair;
* the unique-output-filename loop of `_extract_files` (lines 373-382),
  with the filesystem as an explicit association list of paths.

Machine bytes are `Nat` values below 256; Python exceptions become
`Option` / `Except` results.
-/

/-- Big-endian 4-byte encoding of a natural number,
`n.to_bytes(4, byteorder='big')`.  Faithful for `n < 2^32`; Python
raises `OverflowError` above that bound, which callers of the model
make explicit. -/
def be4 (n : Nat) : List Nat :=
  [n / 16777216 % 256, n / 65536 % 256, n / 256 % 256, n % 256]

/-- Big-endian integer from a byte list, `int.from_bytes(l, byteorder='big')`
(accepts any length, like the Python original). -/
def fromBytesBE (l : List Nat) : Nat :=
  l.foldl (fun a b => a * 256 + b) 0

/-- The eight bits of one byte, least significant first:
`(byte >> i) & 1` for `i` in `range(8)` (hide_data_in_image, lines 160-162). -/
def byteToBits (b : Nat) : List Nat :=
  [b % 2, b / 2 % 2, b / 4 % 2, b / 8 % 2,
   b / 16 % 2, b / 32 % 2, b / 64 % 2, b / 128 % 2]

/-- Bit expansion of a byte string, LSB-first inside each byte. -/
def bytesToBits (l : List Nat) : List Nat :=
  (l.map byteToBits).flatten

/-- Zero-pad a bit list until its length is a multiple of 3
(hide_data_in_image, lines 165-166). -/
def padBits (bits : List Nat) : List Nat :=
  bits ++ List.replicate ((3 - bits.length % 3) % 3) 0

/-- A carrier image after `img.convert('RGB')`: width, height and the
row-major pixel list, one `[r, g, b]` channel list per pixel. -/
structure Image where
  width : Nat
  height : Nat
  pixels : List (List Nat)
deriving DecidableEq

/-- Wellformedness of the numpy pixel array: `width * height` pixels,
three 8-bit channels each. -/
def WF (img : Image) : Prop :=
  img.pixels.length = img.width * img.height ∧
  ∀ p ∈ img.pixels, p.length = 3 ∧ ∀ c ∈ p, c < 256

instance (img : Image) : Decidable (WF img) := by
  unfold WF; exact inferInstance

/-- Least significant bit of a channel value, `pixel & 1`. -/
def lsb (c : Nat) : Nat := Nat.land c 1

/-- LSB overwrite of a channel value, `(pixel & 254) | bit`
(hide_data_in_image, line 176). -/
def setLSB (c b : Nat) : Nat := Nat.lor (Nat.land c 254) b

/-- Write the given bits (at most 3) into the leading channels of one
pixel: `for k in range(min(3, len(bits) - idx))` (lines 174-176). -/
def writePixel : List Nat → List Nat → List Nat
  | cs, [] => cs
  | [], _ => []
  | c :: cs, b :: bs => setLSB c b :: writePixel cs bs

/-- The embedding walk of hide_data_in_image (lines 169-181): pixels in
row-major order, three bits per pixel, stopping once all bits are
consumed; the remaining pixels are returned untouched. -/
def writeBits : List (List Nat) → List Nat → List (List Nat)
  | ps, [] => ps
  | [], _ => []
  | p :: ps, b :: bs => writePixel p (b :: bs.take 2) :: writeBits ps (bs.drop 2)

/-- Capacity of an image, `(img.width * img.height * 3) // 8`
(can_hide_data, line 132). -/
def maxBytes (img : Image) : Nat := img.width * img.height * 3 / 8

/-- `SteganographyEngine.can_hide_data` (lines 126-136):
`max_bytes >= data_size + 4`. -/
def can_hide_data (img : Image) (dataSize : Nat) : Bool :=
  decide (dataSize + 4 ≤ maxBytes img)

/-- `SteganographyEngine.hide_data_in_image` (lines 138-188).  The data
is prefixed with its 4-byte big-endian length, the capacity is
re-checked through `can_hide_data` on the prefixed length, the bits are
expanded LSB-first, zero-padded to a multiple of 3 and written into the
pixel LSBs.  `none` models `return False` (which also covers the
`OverflowError` of `to_bytes(4)` for `len(data) >= 2^32`, caught by the
blanket `except`). -/
def hide_data_in_image (img : Image) (data : List Nat) : Option Image :=
  if data.length < 4294967296 then
    let full := be4 data.length ++ data
    if can_hide_data img full.length then
      some { img with pixels := writeBits img.pixels (padBits (bytesToBits full)) }
    else none
  else none

/-- The LSB stream of a pixel list in the scan order of the engine:
row-major pixels, channels R, G, B. -/
def imageBits (ps : List (List Nat)) : List Nat :=
  (ps.map (fun p => p.map lsb)).flatten

/-- First scan of extract_data_from_image (lines 203-212): collect the
LSBs pixel by pixel and stop after the first pixel that brings the
count to 32 or more. -/
def phase1 : List (List Nat) → List Nat → List Nat
  | [], acc => acc
  | p :: ps, acc =>
    let acc2 := acc ++ p.map lsb
    if 32 ≤ acc2.length then acc2 else phase1 ps acc2

/-- One byte from up to eight collected bits, LSB first:
`byte |= bits[i + j] << j`, missing bits contributing 0
(extract_data_from_image, lines 217-222). -/
def byteFromBits (l : List Nat) : Nat :=
  (l.take 8).foldr (fun b acc => b + 2 * acc) 0

/-- Decode the payload length from the first 32 collected bits
(lines 215-224): four LSB-first bytes, then big-endian. -/
def sizeFromBits (bits : List Nat) : Nat :=
  let sb := bits.take 32
  fromBytesBE [byteFromBits sb, byteFromBits (sb.drop 8),
    byteFromBits (sb.drop 16), byteFromBits (sb.drop 24)]

/-- Second scan of extract_data_from_image (lines 227-236): resume at
pixel `len // 3` (recomputed from the running bit count), reading whole
pixels but appending only while the total bit budget is not reached,
and stopping when the row index `(len // 3) // width` falls past the
last row.  The inner guard on an out-of-range pixel is unreachable for
a wellformed image and mirrors the fact that numpy indexing stays in
bounds there. -/
def phase2 (ps : List (List Nat)) (W H total : Nat) (acc : List Nat) : List Nat :=
  if h : acc.length < total ∧ acc.length / 3 / W < H then
    if hn : (((ps.getD (acc.length / 3) []).map lsb).take (total - acc.length)).length = 0 then
      acc
    else
      phase2 ps W H total
        (acc ++ ((ps.getD (acc.length / 3) []).map lsb).take (total - acc.length))
  else acc
termination_by total - acc.length
decreasing_by
  have hlt : acc.length < total := h.1
  have hpos :
      0 < (((ps.getD (acc.length / 3) []).map lsb).take (total - acc.length)).length :=
    Nat.pos_of_ne_zero hn
  simp only [List.length_append, List.length_take] at hpos ⊢
  omega

/-- Reassemble data bytes from the collected bits (lines 240-246): only
complete groups of eight bits produce a byte, LSB first. -/
def bytesFromBits : List Nat → List Nat
  | b0 :: b1 :: b2 :: b3 :: b4 :: b5 :: b6 :: b7 :: rest =>
      (b0 + 2 * b1 + 4 * b2 + 8 * b3 + 16 * b4 + 32 * b5 + 64 * b6 + 128 * b7)
        :: bytesFromBits rest
  | _ => []

/-- `SteganographyEngine.extract_data_from_image` (lines 190-251):
collect at least 32 bits, decode the length `n`, keep scanning until
`32 + n*8` bits or the end of the grid, and reassemble
`extracted_bits[32:total]` into bytes. -/
def extract_data_from_image (img : Image) : List Nat :=
  let bits1 := phase1 img.pixels []
  let n := sizeFromBits bits1
  let total := 32 + n * 8
  let bits := phase2 img.pixels img.width img.height total bits1
  bytesFromBits ((bits.drop 32).take (total - 32))

/-- The 12-byte magic marker `b"INVISIOVAULT"` (line 35). -/
def ENCRYPTION_HEADER : List Nat :=
  [73, 78, 86, 73, 83, 73, 79, 86, 65, 85, 76, 84]

/-- Failure modes of `decrypt_data`: `formatError` is the
`ValueError("Invalid data format")` of the missing magic marker,
`cryptoError` the `ValueError("Incorrect password or corrupted data")`
of the failing decrypt/unpad. -/
inductive CryptoErr where
  | formatError
  | cryptoError
deriving DecidableEq

/-- PKCS#7 padding to 16-byte blocks, the library `pad(data, 16)`. -/
def pkcs7pad (data : List Nat) : List Nat :=
  let padLen := 16 - data.length % 16
  data ++ List.replicate padLen padLen

/-- PKCS#7 unpadding, the library `unpad(data, 16)`: the input must be
a nonzero multiple of 16 bytes, the last byte gives the padding length
(1..16), and every padding byte must equal it; `none` models the raised
`ValueError`. -/
def pkcs7unpad (d : List Nat) : Option (List Nat) :=
  if d.length = 0 then none
  else if d.length % 16 ≠ 0 then none
  else
    let p := d.getD (d.length - 1) 0
    if p < 1 ∨ min 16 d.length < p then none
    else if d.drop (d.length - p) ≠ List.replicate p p then none
    else some (d.take (d.length - p))

/-- Split a byte string into consecutive 16-byte blocks (the block walk
of the library CBC mode); a final short block is kept short and is only
produced on inputs whose length is not a multiple of 16. -/
def chunks : List Nat → List (List Nat)
  | [] => []
  | x :: xs => (x :: xs.take 15) :: chunks (xs.drop 15)
termination_by l => l.length
decreasing_by
  simp only [List.length_drop, List.length_cons]
  omega

/-- Pointwise XOR of two byte strings. -/
def xorBytes (a b : List Nat) : List Nat :=
  List.zipWith (fun x y => Nat.xor x y) a b

/-- CBC encryption chaining over an abstract block cipher `E`:
`c_i = E(key, p_i XOR c_(i-1))`, chain seeded with the IV. -/
def cbcEnc (E : List Nat → List Nat → List Nat) (key : List Nat) :
    List Nat → List (List Nat) → List (List Nat)
  | _, [] => []
  | prev, b :: bs =>
    let c := E key (xorBytes b prev)
    c :: cbcEnc E key c bs

/-- CBC decryption chaining over an abstract block decipher `D`:
`p_i = D(key, c_i) XOR c_(i-1)`. -/
def cbcDec (D : List Nat → List Nat → List Nat) (key : List Nat) :
    List Nat → List (List Nat) → List (List Nat)
  | _, [] => []
  | prev, c :: cs => xorBytes (D key c) prev :: cbcDec D key c cs

/-- `SteganographyEngine.encrypt_data` (lines 50-59), with the AES
block encryption `E` and the PBKDF2 derivation `kdf` abstract, and the
`os.urandom` salt and IV passed explicitly:
`HEADER + SALT + IV + CBC(pad(data))`. -/
def encrypt_data (E kdf : List Nat → List Nat → List Nat)
    (data pw salt iv : List Nat) : List Nat :=
  let key := kdf pw salt
  ENCRYPTION_HEADER ++ salt ++ iv ++
    (cbcEnc E key iv (chunks (pkcs7pad data))).flatten

/-- `SteganographyEngine.decrypt_data` (lines 61-80): check the magic
marker, slice out salt (16), IV (16) and ciphertext, re-derive the key
and CBC-decrypt, then unpad.  A ciphertext that is not a multiple of
the block size makes the library decrypt raise, which the source
catches as the same "incorrect password or corrupted data" error. -/
def decrypt_data (D kdf : List Nat → List Nat → List Nat)
    (blob pw : List Nat) : Except CryptoErr (List Nat) :=
  if ENCRYPTION_HEADER.isPrefixOf blob then
    let rest := blob.drop 12
    let salt := rest.take 16
    let iv := (rest.drop 16).take 16
    let ct := rest.drop 32
    let key := kdf pw salt
    if ct.length % 16 = 0 then
      match pkcs7unpad ((cbcDec D key iv (chunks ct)).flatten) with
      | some pt => Except.ok pt
      | none => Except.error CryptoErr.cryptoError
    else Except.error CryptoErr.cryptoError
  else Except.error CryptoErr.formatError

/-- `SteganographyEngine.prepare_file_data` with no password
(lines 82-103), the FileRecord block: 4-byte big-endian metadata
length, the serialized metadata, then the raw content.  The JSON
serialization of the metadata dictionary is the external `json.dumps`,
abstracted as `dumps`. -/
def prepare_file_data {M : Type} (dumps : M → List Nat)
    (m : M) (content : List Nat) : List Nat :=
  be4 (dumps m).length ++ dumps m ++ content

/-- `SteganographyEngine.extract_file_data` with no password
(lines 105-124): read the 4-byte metadata length, parse the metadata
slice with the external `json.loads` (abstracted as `loads`, `none`
modelling the raised invalid-metadata error), the remainder being the
content. -/
def extract_file_data {M : Type} (loads : List Nat → Option M)
    (d : List Nat) : Option (M × List Nat) :=
  let mlen := fromBytesBE (d.take 4)
  match loads ((d.drop 4).take mlen) with
  | some m => some (m, d.drop (4 + mlen))
  | none => none

/-- The archive layout written by `WorkerThread._hide_files`
(lines 293-297) with an explicit count field: 4-byte big-endian count,
then for each block a 4-byte big-endian size and the block bytes. -/
def packWithCount (count : Nat) (blocks : List (List Nat)) : List Nat :=
  be4 count ++ (blocks.map (fun b => be4 b.length ++ b)).flatten

/-- Archive packing as the source performs it: the count is the number
of blocks. -/
def packRecords (blocks : List (List Nat)) : List Nat :=
  packWithCount blocks.length blocks

/-- The record loop of `WorkerThread._extract_files` (lines 356-388):
iterate the declared count, break when the offset runs past the end,
read the 4-byte size and the block, advance the offset, and keep the
records whose `extract_file_data` succeeds — a per-record failure is
caught, reported, and skipped. -/
def unpackLoop {M : Type} (loads : List Nat → Option M) :
    Nat → Nat → List Nat → List (M × List Nat)
  | 0, _, _ => []
  | n + 1, offset, data =>
    if data.length ≤ offset then []
    else
      let size := fromBytesBE ((data.drop offset).take 4)
      let block := (data.drop (offset + 4)).take size
      match extract_file_data loads block with
      | some mc => mc :: unpackLoop loads n (offset + 4 + size) data
      | none => unpackLoop loads n (offset + 4 + size) data

/-- Archive unpacking of `_extract_files` (lines 349-366): the count is
the first 4 bytes, records start at offset 4. -/
def unpackArchive {M : Type} (loads : List Nat → Option M)
    (data : List Nat) : List (M × List Nat) :=
  unpackLoop loads (fromBytesBE (data.take 4)) 4 data

/-- The output directory as an explicit structure: an association list
from path to file content, newest entry first. -/
abbrev FS := List (String × List Nat)

/-- `os.path.exists` over the explicit filesystem. -/
def fsExists (fs : FS) (p : String) : Bool :=
  fs.any (fun e => e.1 == p)

/-- Reading a path over the explicit filesystem. -/
def fsRead (fs : FS) (p : String) : Option (List Nat) :=
  (fs.find? (fun e => e.1 == p)).map (fun e => e.2)

/-- `open(path, 'wb').write(content)` over the explicit filesystem. -/
def fsWrite (fs : FS) (p : String) (c : List Nat) : FS :=
  (p, c) :: fs

/-- The unique-filename loop of `_extract_files` (lines 374-378):
`while os.path.exists(file_path): file_path = base_counter + ext`,
counter starting at 1.  `base` and `ext` are the two halves of
`os.path.splitext(file_path)` (whose concatenation is the original
path).  The loop is given fuel; `none` models non-termination, which
cannot occur on an actual finite directory. -/
def uniqueLoop (fs : FS) (base ext : String) :
    Nat → String → Nat → Option String
  | 0, _, _ => none
  | fuel + 1, current, counter =>
    if fsExists fs current then
      uniqueLoop fs base ext fuel (base ++ "_" ++ toString counter ++ ext) (counter + 1)
    else some current

/-- The chosen output path for one extracted record. -/
def uniquePath (fs : FS) (base ext : String) : Option String :=
  uniqueLoop fs base ext (fs.length + 1) (base ++ ext) 1

/-- Fixture: an 11-by-1 all-black image, capacity exactly 4 bytes. -/
def imgBoundary : Image := ⟨11, 1, List.replicate 11 [0, 0, 0]⟩

/-- Fixture: an 8-by-11 all-black image, capacity 33 bytes. -/
def imgHello : Image := ⟨8, 11, List.replicate 88 [0, 0, 0]⟩

/-- Fixture: the bytes of `b"hello"`. -/
def helloBytes : List Nat := [104, 101, 108, 108, 111]

/-- Fixture: a 4-by-8 all-black image, capacity exactly 12 bytes. -/
def imgCap : Image := ⟨4, 8, List.replicate 32 [0, 0, 0]⟩

/-- Fixture: a 5-by-5 image with nontrivial channel values. -/
def imgFrame : Image := ⟨5, 5, List.replicate 25 [5, 7, 9]⟩

/-- Fixture: the image produced by embedding the byte 171 in `imgFrame`. -/
def outFrame : Image :=
  (hide_data_in_image imgFrame [171]).getD ⟨0, 0, []⟩

/-- Fixture: a 5-by-4 image whose channel LSBs are all 1, so the
decoded length field is far larger than the grid. -/
def imgTrunc : Image := ⟨5, 4, List.replicate 20 [1, 1, 1]⟩

/-- Fixture: the identity block cipher, standing in for AES in
witnesses. -/
def idE : List Nat → List Nat → List Nat := fun _ b => b

/-- Fixture: a constant key derivation, standing in for PBKDF2 in
witnesses. -/
def zeroKdf : List Nat → List Nat → List Nat := fun _ _ => List.replicate 32 0

/-- Fixture: a metadata codec over `Unit` whose serialization is the
empty byte string. -/
def unitLoads : List Nat → Option Unit :=
  fun l => if l.isEmpty then some () else none

/-- Fixture: serializer half of the `Unit` metadata codec. -/
def unitDumps : Unit → List Nat := fun _ => []

/-- Fixture: a directory holding `out/a.txt` and `out/a_1.txt`. -/
def fsDemo : FS := [("out/a.txt", [1]), ("out/a_1.txt", [2])]

/-! ### Byte and bit codec lemmas -/

theorem byteToBits_length (b : Nat) : (byteToBits b).length = 8 := rfl

theorem byteToBits_lt_two (b : Nat) : ∀ x ∈ byteToBits b, x < 2 := by
  intro x hx
  simp only [byteToBits, List.mem_cons, List.not_mem_nil, or_false] at hx
  rcases hx with h | h | h | h | h | h | h | h <;> subst h <;> omega

theorem bytesToBits_cons (b : Nat) (l : List Nat) :
    bytesToBits (b :: l) = byteToBits b ++ bytesToBits l := by
  simp [bytesToBits]

theorem bytesToBits_append (l1 l2 : List Nat) :
    bytesToBits (l1 ++ l2) = bytesToBits l1 ++ bytesToBits l2 := by
  simp [bytesToBits]

theorem bytesToBits_lt_two (l : List Nat) : ∀ x ∈ bytesToBits l, x < 2 := by
  intro x hx
  simp only [bytesToBits, List.mem_flatten, List.mem_map] at hx
  obtain ⟨s, ⟨b, _, rfl⟩, hxs⟩ := hx
  exact byteToBits_lt_two b x hxs

theorem bytesToBits_length (l : List Nat) : (bytesToBits l).length = 8 * l.length := by
  induction l with
  | nil => rfl
  | cons b t ih =>
    rw [bytesToBits_cons, List.length_append, byteToBits_length, ih]
    simp [Nat.mul_succ]
    omega

theorem padBits_lt_two (l : List Nat) (hl : ∀ x ∈ l, x < 2) :
    ∀ x ∈ padBits l, x < 2 := by
  intro x hx
  simp only [padBits, List.mem_append, List.mem_replicate] at hx
  rcases hx with h | h
  · exact hl x h
  · omega

theorem padBits_length (l : List Nat) :
    (padBits l).length = 3 * ((l.length + 2) / 3) := by
  simp only [padBits, List.length_append, List.length_replicate]
  omega

theorem padBits_prefix (l : List Nat) (n : Nat) (h : n ≤ l.length) :
    (padBits l).take n = l.take n := by
  simp only [padBits, List.take_append_eq_append_take]
  rw [Nat.sub_eq_zero_of_le h]
  simp

theorem lsb_eq_mod (c : Nat) : lsb c = c % 2 := Nat.and_one_is_mod c

set_option maxRecDepth 8192 in
theorem setLSB_spec : ∀ c < 256, ∀ b < 2,
    lsb (setLSB c b) = b ∧ setLSB c b / 2 = c / 2 ∧ setLSB c b < 256 := by
  decide

theorem byteFromBits_byteToBits (b : Nat) (hb : b < 256) :
    byteFromBits (byteToBits b) = b := by
  simp [byteFromBits, byteToBits]
  omega

/-! ### Embedding-walk lemmas -/

theorem writePixel_nil_bits (cs : List Nat) : writePixel cs [] = cs := by
  cases cs <;> rfl

theorem writePixel_length (cs : List Nat) : ∀ bs, (writePixel cs bs).length = cs.length := by
  induction cs with
  | nil => intro bs; cases bs <;> rfl
  | cons c cs ih =>
    intro bs
    cases bs with
    | nil => rfl
    | cons b bs => simp [writePixel, ih]

theorem writePixel_map_lsb (cs : List Nat) : ∀ bs, (∀ c ∈ cs, c < 256) → (∀ b ∈ bs, b < 2) →
    bs.length ≤ cs.length →
    (writePixel cs bs).map lsb = bs ++ (cs.map lsb).drop bs.length := by
  induction cs with
  | nil =>
    intro bs _ _ hlen
    cases bs with
    | nil => rfl
    | cons b bs => simp at hlen
  | cons c cs ih =>
    intro bs hc hb hlen
    cases bs with
    | nil => simp [writePixel_nil_bits]
    | cons b bs =>
      simp only [writePixel, List.map_cons, List.length_cons, List.drop_succ_cons]
      rw [(setLSB_spec c (hc c (by simp)) b (hb b (by simp))).1]
      rw [ih bs (fun x hx => hc x (by simp [hx])) (fun x hx => hb x (by simp [hx]))
        (by simpa using Nat.succ_le_succ_iff.mp (by simpa using hlen))]
      simp

theorem writePixel_upper (cs : List Nat) : ∀ bs k, (∀ c ∈ cs, c < 256) → (∀ b ∈ bs, b < 2) →
    ((writePixel cs bs).getD k 0) / 2 = (cs.getD k 0) / 2 := by
  induction cs with
  | nil => intro bs k _ _; cases bs <;> rfl
  | cons c cs ih =>
    intro bs k hc hb
    cases bs with
    | nil => rw [writePixel_nil_bits]
    | cons b bs =>
      cases k with
      | zero =>
        simp only [writePixel, List.getD_cons_zero]
        exact (setLSB_spec c (hc c (by simp)) b (hb b (by simp))).2.1
      | succ k =>
        simp only [writePixel, List.getD_cons_succ]
        exact ih bs k (fun x hx => hc x (by simp [hx])) (fun x hx => hb x (by simp [hx]))

theorem writeBits_nil_bits (ps : List (List Nat)) : writeBits ps [] = ps := by
  cases ps <;> rfl

theorem writeBits_cons (p : List Nat) (ps : List (List Nat)) (b : Nat) (bs : List Nat) :
    writeBits (p :: ps) (b :: bs) = writePixel p (b :: bs.take 2) :: writeBits ps (bs.drop 2) := rfl

theorem writeBits_length (ps : List (List Nat)) : ∀ bits, (writeBits ps bits).length = ps.length := by
  induction ps with
  | nil => intro bits; cases bits <;> rfl
  | cons p ps ih =>
    intro bits
    cases bits with
    | nil => rfl
    | cons b bs => simp [writeBits_cons, ih]

theorem writeBits_shape (ps : List (List Nat)) : ∀ bits, (∀ p ∈ ps, p.length = 3) →
    ∀ p ∈ writeBits ps bits, p.length = 3 := by
  induction ps with
  | nil => intro bits _ p hp; cases bits <;> simp_all [writeBits]
  | cons q ps ih =>
    intro bits hshape p hp
    cases bits with
    | nil => rw [writeBits_nil_bits] at hp; exact hshape p hp
    | cons b bs =>
      rw [writeBits_cons] at hp
      rcases List.mem_cons.mp hp with h | h
      · subst h; rw [writePixel_length]; exact hshape q (by simp)
      · exact ih (bs.drop 2) (fun x hx => hshape x (by simp [hx])) p h

theorem imageBits_nil : imageBits [] = [] := rfl

theorem imageBits_cons (p : List Nat) (ps : List (List Nat)) :
    imageBits (p :: ps) = p.map lsb ++ imageBits ps := by
  simp [imageBits]

theorem imageBits_length (ps : List (List Nat)) (h : ∀ p ∈ ps, p.length = 3) :
    (imageBits ps).length = 3 * ps.length := by
  induction ps with
  | nil => rfl
  | cons p ps ih =>
    rw [imageBits_cons, List.length_append, List.length_map, h p (by simp),
      ih (fun x hx => h x (by simp [hx]))]
    simp [Nat.mul_succ]
    omega

theorem imageBits_writeBits (ps : List (List Nat)) : ∀ bits : List Nat,
    (∀ p ∈ ps, p.length = 3) → (∀ p ∈ ps, ∀ c ∈ p, c < 256) → (∀ b ∈ bits, b < 2) →
    bits.length ≤ 3 * ps.length →
    imageBits (writeBits ps bits) = bits ++ (imageBits ps).drop bits.length := by
  induction ps with
  | nil =>
    intro bits _ _ _ hlen
    have : bits = [] := List.eq_nil_of_length_eq_zero (by simpa using hlen)
    subst this
    rfl
  | cons p ps ih =>
    intro bits hshape hbound hb hlen
    have hp3 : p.length = 3 := hshape p (by simp)
    have hmlp : (p.map lsb).length = 3 := by simp [hp3]
    have hpb : ∀ c ∈ p, c < 256 := hbound p (by simp)
    cases bits with
    | nil => simp [writeBits_nil_bits]
    | cons b0 bs =>
      rw [writeBits_cons, imageBits_cons, imageBits_cons]
      have hb3 : ∀ x ∈ b0 :: bs.take 2, x < 2 := by
        intro x hx
        apply hb
        rcases List.mem_cons.mp hx with h | h
        · simp [h]
        · simp [List.mem_of_mem_take h]
      have hlen3 : (b0 :: bs.take 2).length ≤ p.length := by
        simp only [List.length_cons, List.length_take, hp3]
        omega
      rw [writePixel_map_lsb p (b0 :: bs.take 2) hpb hb3 hlen3]
      rcases Nat.lt_or_ge bs.length 2 with h2 | h2
      · have hdrop2 : bs.drop 2 = [] := List.drop_eq_nil_of_le (by omega)
        have htake2 : bs.take 2 = bs := List.take_of_length_le (by omega)
        rw [hdrop2, htake2, writeBits_nil_bits]
        rw [List.drop_append_eq_append_drop]
        have h0 : (b0 :: bs).length - (p.map lsb).length = 0 := by
          simp [hmlp]; omega
        rw [h0, List.drop_zero]
        simp [List.append_assoc]
      · have htake3 : (b0 :: bs.take 2).length = 3 := by
          simp [List.length_take]; omega
        rw [ih (bs.drop 2) (fun x hx => hshape x (by simp [hx]))
          (fun x hx => hbound x (by simp [hx]))
          (fun x hx => hb x (by simp [List.mem_of_mem_drop hx]))
          (by simp at hlen ⊢; omega)]
        rw [htake3]
        have hA : (p.map lsb).drop 3 = [] := List.drop_eq_nil_of_le (by omega)
        rw [hA]
        rw [List.drop_append_eq_append_drop]
        have hB : (p.map lsb).drop (b0 :: bs).length = [] :=
          List.drop_eq_nil_of_le (by simp [hmlp]; omega)
        rw [hB]
        simp only [List.append_nil, List.nil_append, List.length_drop,
          List.length_cons, hmlp]
        have hC : bs.length + 1 - 3 = bs.length - 2 := by omega
        rw [hC]
        have hD : bs.take 2 ++ (bs.drop 2 ++ (imageBits ps).drop (bs.length - 2)) =
            bs ++ (imageBits ps).drop (bs.length - 2) := by
          rw [← List.append_assoc, List.take_append_drop]
        simp only [List.cons_append, hD]

theorem writeBits_frame (ps : List (List Nat)) : ∀ (bits : List Nat) (i : Nat),
    bits.length ≤ 3 * i → (writeBits ps bits).getD i [] = ps.getD i [] := by
  induction ps with
  | nil => intro bits i _; cases bits <;> rfl
  | cons p ps ih =>
    intro bits i hlen
    cases bits with
    | nil => rw [writeBits_nil_bits]
    | cons b0 bs =>
      cases i with
      | zero => simp at hlen
      | succ i =>
        rw [writeBits_cons]
        simp only [List.getD_cons_succ]
        exact ih (bs.drop 2) i (by simp at hlen ⊢; omega)

theorem writeBits_upper (ps : List (List Nat)) : ∀ (bits : List Nat) (i k : Nat),
    (∀ p ∈ ps, ∀ c ∈ p, c < 256) → (∀ b ∈ bits, b < 2) →
    ((writeBits ps bits).getD i []).getD k 0 / 2 = ((ps.getD i []).getD k 0) / 2 := by
  induction ps with
  | nil => intro bits i k _ _; cases bits <;> rfl
  | cons p ps ih =>
    intro bits i k hbound hb
    cases bits with
    | nil => rw [writeBits_nil_bits]
    | cons b0 bs =>
      cases i with
      | zero =>
        rw [writeBits_cons]
        simp only [List.getD_cons_zero]
        apply writePixel_upper p (b0 :: bs.take 2) k (hbound p (by simp))
        intro x hx
        apply hb
        rcases List.mem_cons.mp hx with h | h
        · simp [h]
        · simp [List.mem_of_mem_take h]
      | succ i =>
        rw [writeBits_cons]
        simp only [List.getD_cons_succ]
        exact ih (bs.drop 2) i k (fun x hx => hbound x (by simp [hx]))
          (fun x hx => hb x (by simp [List.mem_of_mem_drop hx]))

/-! ### Extraction-scan lemmas -/

theorem phase1_spec (ps : List (List Nat)) : ∀ acc : List Nat,
    (∀ p ∈ ps, p.length = 3) → acc.length < 32 →
    phase1 ps acc =
      acc ++ (imageBits ps).take (3 * min ps.length ((32 - acc.length + 2) / 3)) := by
  induction ps with
  | nil => intro acc _ _; simp [phase1, imageBits_nil]
  | cons p ps ih =>
    intro acc hshape hacc
    have hp3 : p.length = 3 := hshape p (by simp)
    have hmlp : (p.map lsb).length = 3 := by simp [hp3]
    rw [imageBits_cons]
    simp only [phase1, List.length_append, hmlp]
    by_cases hc : 32 ≤ acc.length + 3
    · rw [if_pos hc]
      have hone : (32 - acc.length + 2) / 3 = 1 := by omega
      rw [hone]
      have hmin : min (p :: ps).length 1 = 1 := by
        simp only [List.length_cons]
        omega
      rw [hmin, Nat.mul_one]
      rw [List.take_append_eq_append_take]
      rw [List.take_of_length_le (by omega : (p.map lsb).length ≤ 3)]
      rw [(by omega : 3 - (p.map lsb).length = 0), List.take_zero, List.append_nil]
    · rw [if_neg hc]
      rw [ih (acc ++ p.map lsb) (fun x hx => hshape x (by simp [hx]))
        (by simp [hmlp]; omega)]
      rw [List.append_assoc]
      congr 1
      simp only [List.length_append, hmlp]
      rw [List.take_append_eq_append_take]
      rw [List.take_of_length_le (le_trans (le_of_eq hmlp) (by
        have h1 : 1 ≤ min (p :: ps).length ((32 - acc.length + 2) / 3) := by
          simp only [List.length_cons]
          omega
        omega))]
      simp only [List.length_cons, hmlp]
      have harith : 3 * min (ps.length + 1) ((32 - acc.length + 2) / 3) - 3 =
          3 * min ps.length ((32 - (acc.length + 3) + 2) / 3) := by omega
      rw [harith]

theorem imageBits_getD (ps : List (List Nat)) : ∀ q : Nat,
    (∀ p ∈ ps, p.length = 3) → q < ps.length →
    (ps.getD q []).map lsb = ((imageBits ps).drop (3 * q)).take 3 := by
  induction ps with
  | nil => intro q _ hq; simp at hq
  | cons p ps ih =>
    intro q hshape hq
    have hmlp : (p.map lsb).length = 3 := by simp [hshape p (by simp)]
    cases q with
    | zero =>
      simp only [List.getD_cons_zero, imageBits_cons, Nat.mul_zero, List.drop_zero]
      rw [List.take_append_eq_append_take]
      rw [List.take_of_length_le (by rw [hmlp])]
      rw [(by rw [hmlp] : 3 - (p.map lsb).length = 3 - 3)]
      simp
    | succ q =>
      simp only [List.getD_cons_succ, imageBits_cons]
      rw [List.drop_append_eq_append_drop]
      have hnil : (p.map lsb).drop (3 * (q + 1)) = [] :=
        List.drop_eq_nil_of_le (by rw [hmlp]; omega)
      rw [hnil, List.nil_append, hmlp]
      rw [(by omega : 3 * (q + 1) - 3 = 3 * q)]
      exact ih q (fun x hx => hshape x (by simp [hx])) (by simpa using hq)

theorem phase2_stop (ps : List (List Nat)) (W H total : Nat) (acc : List Nat)
    (h : total ≤ acc.length) : phase2 ps W H total acc = acc := by
  rw [phase2.eq_def]
  have hneg : ¬(acc.length < total ∧ acc.length / 3 / W < H) := by
    rintro ⟨h1, _⟩
    omega
  rw [dif_neg hneg]

theorem phase2_spec_aux : ∀ (k : Nat) (ps : List (List Nat)) (W H total m : Nat),
    0 < W → ps.length = W * H → (∀ p ∈ ps, p.length = 3) →
    (m % 3 = 0 ∨ total ≤ m) → m ≤ 3 * ps.length → total - m ≤ k →
    phase2 ps W H total ((imageBits ps).take m) =
      (imageBits ps).take (max m (min total (3 * ps.length))) := by
  intro k
  induction k with
  | zero =>
    intro ps W H total m hW hplen hshape hm3 hle hk
    have hS : (imageBits ps).length = 3 * ps.length := imageBits_length ps hshape
    have hacc : ((imageBits ps).take m).length = m := by
      rw [List.length_take]; omega
    rw [phase2_stop ps W H total _ (by omega)]
    have hmax : max m (min total (3 * ps.length)) = m := by omega
    rw [hmax]
  | succ k ih =>
    intro ps W H total m hW hplen hshape hm3 hle hk
    have hS : (imageBits ps).length = 3 * ps.length := imageBits_length ps hshape
    have hacc : ((imageBits ps).take m).length = m := by
      rw [List.length_take]; omega
    by_cases htm : total ≤ m
    · rw [phase2_stop ps W H total _ (by omega)]
      have hmax : max m (min total (3 * ps.length)) = m := by omega
      rw [hmax]
    · have hm3' : m % 3 = 0 := hm3.resolve_right htm
      by_cases hm3N : m < 3 * ps.length
      · -- the guard holds and one more pixel is read
        have h1 : m / 3 < W * H := by rw [← hplen]; omega
        have hqlt : m / 3 / W < H := by
          refine (Nat.div_lt_iff_lt_mul hW).mpr ?_
          calc m / 3 < W * H := h1
          _ = H * W := Nat.mul_comm W H
        rw [phase2.eq_def, dif_pos (by rw [hacc]; exact ⟨by omega, hqlt⟩)]
        rw [hacc]
        have hgetd : (ps.getD (m / 3) []).map lsb = ((imageBits ps).drop m).take 3 := by
          rw [imageBits_getD ps (m / 3) hshape (by omega)]
          rw [(by omega : 3 * (m / 3) = m)]
        rw [hgetd, List.take_take]
        have hδlen : (((imageBits ps).drop m).take (min (total - m) 3)).length =
            min (total - m) 3 := by
          rw [List.length_take, List.length_drop, hS]
          omega
        rw [dif_neg (by rw [hδlen]; omega)]
        rw [← List.take_add]
        rw [ih ps W H total (m + min (total - m) 3) hW hplen hshape
          (by omega) (by omega) (by omega)]
        have hmax : max (m + min (total - m) 3) (min total (3 * ps.length)) =
            max m (min total (3 * ps.length)) := by omega
        rw [hmax]
      · -- the scan has reached the last pixel: the row guard fails
        have hmeq : m = 3 * ps.length := by omega
        have hq1 : 3 * (W * H) / 3 = W * H := Nat.mul_div_cancel_left _ (by norm_num)
        have hq2 : W * H / W = H := Nat.mul_div_cancel_left _ hW
        have hqeq : ((imageBits ps).take m).length / 3 / W = H := by
          rw [hacc, hmeq, hplen, hq1, hq2]
        rw [phase2.eq_def, dif_neg (by
          rintro ⟨h1, h2⟩
          rw [hqeq] at h2
          exact lt_irrefl H h2)]
        have hmax : max m (min total (3 * ps.length)) = m := by omega
        rw [hmax]

theorem phase2_spec (ps : List (List Nat)) (W H total m : Nat)
    (hW : 0 < W) (hplen : ps.length = W * H) (hshape : ∀ p ∈ ps, p.length = 3)
    (hm3 : m % 3 = 0 ∨ total ≤ m) (hle : m ≤ 3 * ps.length) :
    phase2 ps W H total ((imageBits ps).take m) =
      (imageBits ps).take (max m (min total (3 * ps.length))) :=
  phase2_spec_aux (total - m) ps W H total m hW hplen hshape hm3 hle (le_refl _)

/-! ### Length-field and byte reassembly lemmas -/

theorem byteFromBits_append (x : Nat) (r : List Nat) :
    byteFromBits (byteToBits x ++ r) = byteFromBits (byteToBits x) := by
  unfold byteFromBits
  rw [List.take_append_eq_append_take]
  rw [List.take_of_length_le (by rw [byteToBits_length])]
  rw [(by rw [byteToBits_length] : 8 - (byteToBits x).length = 8 - 8)]
  simp

theorem fromBytesBE_be4 (n : Nat) (hn : n < 4294967296) :
    fromBytesBE (be4 n) = n := by
  simp [fromBytesBE, be4]
  omega

theorem sizeFromBits_spec (l : List Nat) (n : Nat) (hn : n < 4294967296)
    (h32 : l.take 32 = bytesToBits (be4 n)) : sizeFromBits l = n := by
  have hdrop : ∀ (x : Nat) (r : List Nat), (byteToBits x ++ r).drop 8 = r := by
    intro x r
    rw [(by rw [byteToBits_length] : (8 : Nat) = (byteToBits x).length), List.drop_left]
  have hexp : bytesToBits (be4 n) =
      byteToBits (n / 16777216 % 256) ++ (byteToBits (n / 65536 % 256) ++
        (byteToBits (n / 256 % 256) ++ (byteToBits (n % 256) ++ []))) := by
    simp [be4, bytesToBits]
  have e8 : (bytesToBits (be4 n)).drop 8 =
      byteToBits (n / 65536 % 256) ++
        (byteToBits (n / 256 % 256) ++ (byteToBits (n % 256) ++ [])) := by
    rw [hexp, hdrop]
  have e16 : (bytesToBits (be4 n)).drop 16 =
      byteToBits (n / 256 % 256) ++ (byteToBits (n % 256) ++ []) := by
    have h := congrArg (List.drop 8) e8
    rw [List.drop_drop, hdrop] at h
    exact h
  have e24 : (bytesToBits (be4 n)).drop 24 = byteToBits (n % 256) ++ [] := by
    have h := congrArg (List.drop 8) e16
    rw [List.drop_drop, hdrop] at h
    exact h
  simp only [sizeFromBits]
  rw [h32, e8, e16, e24]
  rw [List.append_nil]
  conv_lhs => rw [hexp]
  rw [byteFromBits_append, byteFromBits_append, byteFromBits_append]
  rw [byteFromBits_byteToBits _ (by omega), byteFromBits_byteToBits _ (by omega),
    byteFromBits_byteToBits _ (by omega), byteFromBits_byteToBits _ (by omega)]
  simp [fromBytesBE]
  omega

theorem bytesFromBits_bytesToBits (l : List Nat) (hl : ∀ b ∈ l, b < 256) :
    bytesFromBits (bytesToBits l) = l := by
  induction l with
  | nil => rfl
  | cons b t ih =>
    rw [bytesToBits_cons]
    simp only [byteToBits, List.cons_append, List.nil_append]
    simp only [bytesFromBits]
    rw [ih (fun x hx => hl x (by simp [hx]))]
    have hb : b < 256 := hl b (by simp)
    congr 1
    omega

/-! ### Embedding lemmas for hide_data_in_image -/

theorem hide_eq (img : Image) (data : List Nat) (hn : data.length < 4294967296)
    (hcap : data.length + 8 ≤ maxBytes img) :
    hide_data_in_image img data =
      some { img with
        pixels := writeBits img.pixels (padBits (bytesToBits (be4 data.length ++ data))) } := by
  have hch : can_hide_data img (be4 data.length ++ data).length = true := by
    simp only [can_hide_data, decide_eq_true_eq, List.length_append]
    have h4 : (be4 data.length).length = 4 := rfl
    rw [h4]
    omega
  simp only [hide_data_in_image]
  rw [if_pos hn, if_pos hch]

theorem hide_inv (img : Image) (data : List Nat) (out : Image)
    (h : hide_data_in_image img data = some out) :
    out.width = img.width ∧ out.height = img.height ∧
    out.pixels = writeBits img.pixels (padBits (bytesToBits (be4 data.length ++ data))) ∧
    data.length < 4294967296 ∧ data.length + 8 ≤ maxBytes img := by
  simp only [hide_data_in_image] at h
  split at h
  case isTrue h1 =>
    split at h
    case isTrue h2 =>
      obtain rfl := (Option.some.inj h).symm
      refine ⟨rfl, rfl, rfl, h1, ?_⟩
      simp only [can_hide_data, decide_eq_true_eq, List.length_append] at h2
      have h4 : (be4 data.length).length = 4 := rfl
      rw [h4] at h2
      omega
    case isFalse => simp at h
  case isFalse => simp at h

/-- C1 (amended): whenever the capacity re-check inside `hide_data_in_image`
passes — which requires `maxBytes ≥ n + 8` — the embedded image decodes back
to exactly the original payload. -/
theorem claim_C1 (img : Image) (data : List Nat) (hwf : WF img)
    (hbytes : ∀ b ∈ data, b < 256) (hn : data.length < 4294967296)
    (hcap : data.length + 8 ≤ maxBytes img) :
    (hide_data_in_image img data).map extract_data_from_image = some data := by
  obtain ⟨hplen, hpix⟩ := hwf
  have hshape3 : ∀ p ∈ img.pixels, p.length = 3 := fun p hp => (hpix p hp).1
  have hbound : ∀ p ∈ img.pixels, ∀ c ∈ p, c < 256 := fun p hp => (hpix p hp).2
  rw [hide_eq img data hn hcap]
  rw [Option.map_some']
  congr 1
  set padded := padBits (bytesToBits (be4 data.length ++ data)) with hpad
  set ps2 := writeBits img.pixels padded with hps2
  have hcap8 : (data.length + 8) * 8 ≤ img.width * img.height * 3 :=
    (Nat.le_div_iff_mul_le (by norm_num)).mp hcap
  have hpix3 : img.width * img.height * 3 = 3 * img.pixels.length := by
    rw [hplen]; ring
  have hNbig : 22 ≤ img.pixels.length := by omega
  have hW : 0 < img.width := by
    rcases Nat.eq_zero_or_pos img.width with h0 | h
    · rw [h0, Nat.zero_mul] at hplen; omega
    · exact h
  have hfl : (be4 data.length ++ data).length = 4 + data.length := by
    simp only [List.length_append]
    have h4 : (be4 data.length).length = 4 := rfl
    rw [h4]
  have hbitlen : (bytesToBits (be4 data.length ++ data)).length = 8 * (4 + data.length) := by
    rw [bytesToBits_length, hfl]
  have hpadlen : padded.length = 3 * ((8 * (4 + data.length) + 2) / 3) := by
    rw [hpad, padBits_length, hbitlen]
  have hpadle : padded.length ≤ 3 * img.pixels.length := by omega
  have hpadbits : ∀ b ∈ padded, b < 2 := padBits_lt_two _ (bytesToBits_lt_two _)
  have hS : imageBits ps2 = padded ++ (imageBits img.pixels).drop padded.length :=
    imageBits_writeBits img.pixels padded hshape3 hbound hpadbits hpadle
  have hps2len : ps2.length = img.pixels.length := writeBits_length _ _
  have hps2shape : ∀ p ∈ ps2, p.length = 3 := writeBits_shape img.pixels padded hshape3
  have h32len : (bytesToBits (be4 data.length)).length = 32 := by
    rw [bytesToBits_length]
    rfl
  have hdatalen : (bytesToBits data).length = 8 * data.length := bytesToBits_length data
  obtain ⟨rest, hrest⟩ : ∃ rest, imageBits ps2 =
      bytesToBits (be4 data.length) ++ (bytesToBits data ++ rest) := by
    refine ⟨List.replicate ((3 - (bytesToBits (be4 data.length ++ data)).length % 3) % 3) 0 ++
      (imageBits img.pixels).drop padded.length, ?_⟩
    rw [hS, hpad]
    unfold padBits
    rw [bytesToBits_append]
    simp [List.append_assoc]
  have hS32 : (imageBits ps2).take 32 = bytesToBits (be4 data.length) := by
    rw [hrest, List.take_append_eq_append_take]
    rw [List.take_of_length_le (by rw [h32len])]
    rw [(by rw [h32len] : 32 - (bytesToBits (be4 data.length)).length = 32 - 32)]
    simp
  have hSdrop32 : (imageBits ps2).drop 32 = bytesToBits data ++ rest := by
    rw [hrest, List.drop_append_eq_append_drop]
    rw [List.drop_eq_nil_of_le (by rw [h32len])]
    rw [(by rw [h32len] : 32 - (bytesToBits (be4 data.length)).length = 32 - 32)]
    simp
  have hph1 : phase1 ps2 [] = (imageBits ps2).take 33 := by
    rw [phase1_spec ps2 [] hps2shape (by simp)]
    have harg : 3 * min ps2.length ((32 - ([] : List Nat).length + 2) / 3) = 33 := by
      simp only [List.length_nil]
      rw [hps2len]
      omega
    rw [harg, List.nil_append]
  have hsize : sizeFromBits ((imageBits ps2).take 33) = data.length := by
    apply sizeFromBits_spec _ _ hn
    rw [List.take_take]
    rw [(by omega : min 32 33 = 32)]
    exact hS32
  simp only [extract_data_from_image]
  rw [hph1, hsize]
  rw [phase2_spec ps2 img.width img.height (32 + data.length * 8) 33 hW
    (by rw [hps2len, hplen]) hps2shape (Or.inl (by norm_num)) (by rw [hps2len]; omega)]
  have hminmax : max 33 (min (32 + data.length * 8) (3 * ps2.length)) =
      max 33 (32 + data.length * 8) := by
    rw [hps2len]
    omega
  rw [hminmax]
  rw [List.drop_take, List.take_take]
  have hmin2 : min (32 + data.length * 8 - 32) (max 33 (32 + data.length * 8) - 32) =
      data.length * 8 := by omega
  rw [hmin2]
  rw [hSdrop32]
  rw [List.take_append_eq_append_take]
  rw [List.take_of_length_le (by rw [hdatalen]; omega)]
  rw [(by rw [hdatalen] : data.length * 8 - (bytesToBits data).length =
    data.length * 8 - 8 * data.length)]
  rw [(by omega : data.length * 8 - 8 * data.length = 0)]
  rw [List.take_zero, List.append_nil]
  exact bytesFromBits_bytesToBits data hbytes

/-- C1, as stated in the claim, fails at the capacity boundary: an 11-by-1
image has `maxBytes = 4 = 0 + 4`, yet embedding the empty payload returns
failure (the capacity is re-checked on the already-prefixed length), so the
round-trip equation does not hold. -/
theorem claim_C1_counterexample :
    WF imgBoundary ∧ ([] : List Nat).length + 4 ≤ maxBytes imgBoundary ∧
    (hide_data_in_image imgBoundary []).map extract_data_from_image ≠
      some ([] : List Nat) := by
  decide

/-- Witness: the amended round-trip at a concrete 8-by-11 image and the
payload `b"hello"`. -/
theorem claim_C1_witness :
    (hide_data_in_image imgHello helloBytes).map extract_data_from_image =
      some helloBytes :=
  claim_C1 imgHello helloBytes (by decide) (by decide) (by decide) (by decide)

/-- C2: on a 4-by-8 image, `maxBytes = 12`.  The claim says a payload of
`n = 8` bytes (`maxBytes = n + 4`) embeds successfully, but
`hide_data_in_image` fails, because it passes the prefixed length back into
`can_hide_data`, which adds the 4-byte reserve a second time; a payload of
4 bytes (`maxBytes = n + 8`) does embed. -/
theorem claim_C2 :
    maxBytes imgCap = 12 ∧
    hide_data_in_image imgCap (List.replicate 8 0) = none ∧
    (hide_data_in_image imgCap (List.replicate 4 0)).isSome = true := by
  decide

/-- C3: embedding touches only the least significant bit of each channel
(the upper seven bits of every channel survive), and every pixel at or after
the consumed range of `ceil(8*(n+4)/3)` pixels is returned unmodified. -/
theorem claim_C3 (img : Image) (data : List Nat) (out : Image) (hwf : WF img)
    (hout : hide_data_in_image img data = some out) :
    (∀ i k, (out.pixels.getD i []).getD k 0 / 2 = (img.pixels.getD i []).getD k 0 / 2) ∧
    ∀ i, (8 * (data.length + 4) + 2) / 3 ≤ i →
      out.pixels.getD i [] = img.pixels.getD i [] := by
  obtain ⟨hplen, hpix⟩ := hwf
  obtain ⟨hw, hh, hpx, hn, hcap⟩ := hide_inv img data out hout
  have hbound : ∀ p ∈ img.pixels, ∀ c ∈ p, c < 256 := fun p hp => (hpix p hp).2
  have hpadbits : ∀ b ∈ padBits (bytesToBits (be4 data.length ++ data)), b < 2 :=
    padBits_lt_two _ (bytesToBits_lt_two _)
  have hfl : (be4 data.length ++ data).length = 4 + data.length := by
    simp only [List.length_append]
    have h4 : (be4 data.length).length = 4 := rfl
    rw [h4]
  constructor
  · intro i k
    rw [hpx]
    exact writeBits_upper img.pixels _ i k hbound hpadbits
  · intro i hi
    rw [hpx]
    apply writeBits_frame
    rw [padBits_length, bytesToBits_length, hfl]
    omega

/-- Witness for C3 at a 5-by-5 image and a one-byte payload: channel 2 of
pixel 24 keeps its upper seven bits, and pixel 14 (the first pixel past the
consumed range of 14 pixels) is untouched. -/
theorem claim_C3_witness :
    (outFrame.pixels.getD 24 []).getD 2 0 / 2 = (imgFrame.pixels.getD 24 []).getD 2 0 / 2 ∧
    outFrame.pixels.getD 14 [] = imgFrame.pixels.getD 14 [] :=
  ⟨(claim_C3 imgFrame [171] outFrame (by decide) (by decide)).1 24 2,
   (claim_C3 imgFrame [171] outFrame (by decide) (by decide)).2 14 (by decide)⟩

/-- C4: when the decoded length field asks for more bits than the pixel grid
holds, extraction returns the bytes assembled from all bits it could collect
(every LSB of the grid, minus the 32-bit header), with no failure. -/
theorem claim_C4 (img : Image) (hwf : WF img)
    (htr : 3 * (img.width * img.height) <
      32 + sizeFromBits (phase1 img.pixels []) * 8) :
    extract_data_from_image img = bytesFromBits ((imageBits img.pixels).drop 32) := by
  obtain ⟨hplen, hpix⟩ := hwf
  have hshape3 : ∀ p ∈ img.pixels, p.length = 3 := fun p hp => (hpix p hp).1
  have hSlen : (imageBits img.pixels).length = 3 * img.pixels.length :=
    imageBits_length _ hshape3
  rcases Nat.eq_zero_or_pos img.pixels.length with hN0 | hNpos
  · have hpix0 : img.pixels = [] := List.eq_nil_of_length_eq_zero hN0
    simp only [extract_data_from_image]
    rw [hpix0]
    simp only [phase1]
    rw [phase2.eq_def]
    split
    · split
      · simp [imageBits_nil, bytesFromBits]
      · simp at *
    · simp [imageBits_nil, bytesFromBits]
  · have hW : 0 < img.width := by
      rcases Nat.eq_zero_or_pos img.width with h0 | h
      · rw [h0, Nat.zero_mul] at hplen; omega
      · exact h
    have hph1 : phase1 img.pixels [] =
        (imageBits img.pixels).take (3 * min img.pixels.length 11) := by
      rw [phase1_spec img.pixels [] hshape3 (by simp)]
      have harg : 3 * min img.pixels.length ((32 - ([] : List Nat).length + 2) / 3) =
          3 * min img.pixels.length 11 := by
        simp only [List.length_nil]
      rw [harg, List.nil_append]
    rw [hph1] at htr
    simp only [extract_data_from_image]
    rw [hph1]
    set s := sizeFromBits ((imageBits img.pixels).take (3 * min img.pixels.length 11))
      with hs
    have hT : 3 * img.pixels.length < 32 + s * 8 := by
      rw [hplen]
      exact htr
    rw [phase2_spec img.pixels img.width img.height (32 + s * 8)
      (3 * min img.pixels.length 11) hW hplen hshape3 (Or.inl (by omega)) (by omega)]
    have hmax : max (3 * min img.pixels.length 11)
        (min (32 + s * 8) (3 * img.pixels.length)) = 3 * img.pixels.length := by
      omega
    rw [hmax]
    rw [List.take_of_length_le (le_of_eq hSlen)]
    have hdrople : ((imageBits img.pixels).drop 32).length ≤ 32 + s * 8 - 32 := by
      rw [List.length_drop, hSlen]
      omega
    rw [List.take_of_length_le hdrople]

/-- Witness for C4: a 5-by-4 image whose LSBs are all 1 decodes a length
field of 4294967295, far beyond the 60 available bits; extraction returns
the bytes of the remaining 28 bits. -/
theorem claim_C4_witness :
    extract_data_from_image imgTrunc =
      bytesFromBits ((imageBits imgTrunc.pixels).drop 32) :=
  claim_C4 imgTrunc (by decide) (by decide)

/-! ### Cipher envelope lemmas -/

theorem pkcs7unpad_pad (data : List Nat) : pkcs7unpad (pkcs7pad data) = some data := by
  simp only [pkcs7pad]
  set p := 16 - data.length % 16 with hpdef
  have hp1 : 1 ≤ p := by omega
  have hp16 : p ≤ 16 := by omega
  have hlen : (data ++ List.replicate p p).length = data.length + p := by simp
  simp only [pkcs7unpad]
  rw [if_neg (by rw [hlen]; omega)]
  rw [if_neg (not_not_intro (by rw [hlen]; omega))]
  have hgd : (data ++ List.replicate p p).getD
      ((data ++ List.replicate p p).length - 1) 0 = p := by
    rw [hlen]
    rw [List.getD_append_right data (List.replicate p p) 0 (data.length + p - 1) (by omega)]
    rw [List.getD_eq_getElem?_getD, List.getElem?_replicate]
    rw [if_pos (by omega)]
    rfl
  rw [hgd]
  rw [if_neg (by rw [hlen]; omega)]
  have hdlen : (data ++ List.replicate p p).length - p = data.length := by
    rw [hlen]; omega
  rw [hdlen]
  have hcond : ¬((data ++ List.replicate p p).drop data.length ≠ List.replicate p p) := by
    rw [List.drop_left]
    exact not_not_intro rfl
  rw [if_neg hcond]
  rw [List.take_left]

theorem chunks_flatten (bs : List (List Nat)) (h : ∀ b ∈ bs, b.length = 16) :
    chunks bs.flatten = bs := by
  induction bs with
  | nil => simp [chunks]
  | cons c cs ih =>
    have hc : c.length = 16 := h c (by simp)
    obtain ⟨x, xs, rfl⟩ : ∃ x xs, c = x :: xs := by
      cases c with
      | nil => simp at hc
      | cons x xs => exact ⟨x, xs, rfl⟩
    have hxs : xs.length = 15 := by simpa using hc
    rw [List.flatten_cons, List.cons_append]
    simp only [chunks]
    rw [List.take_append_eq_append_take, List.take_of_length_le (by omega)]
    rw [(by omega : 15 - xs.length = 0), List.take_zero, List.append_nil]
    rw [List.drop_append_eq_append_drop, List.drop_eq_nil_of_le (by omega)]
    rw [(by omega : 15 - xs.length = 0), List.drop_zero, List.nil_append]
    rw [ih (fun b hb => h b (by simp [hb]))]

theorem chunks_all16 : ∀ (k : Nat) (l : List Nat), l.length ≤ k → l.length % 16 = 0 →
    ∀ b ∈ chunks l, b.length = 16 := by
  intro k
  induction k with
  | zero =>
    intro l hk _ b hb
    have : l = [] := List.eq_nil_of_length_eq_zero (by omega)
    subst this
    simp [chunks] at hb
  | succ k ih =>
    intro l hk hmod b hb
    cases l with
    | nil => simp [chunks] at hb
    | cons x xs =>
      have h16 : 15 ≤ xs.length := by
        by_contra hcon
        simp only [List.length_cons] at hmod
        omega
      simp only [chunks] at hb
      rcases List.mem_cons.mp hb with h | h
      · subst h
        simp only [List.length_cons, List.length_take]
        omega
      · refine ih (xs.drop 15) ?_ ?_ b h
        · simp only [List.length_drop]
          simp only [List.length_cons] at hk
          omega
        · simp only [List.length_drop]
          simp only [List.length_cons] at hmod
          omega

theorem flatten_len16 (cs : List (List Nat)) (h : ∀ c ∈ cs, c.length = 16) :
    cs.flatten.length = 16 * cs.length := by
  induction cs with
  | nil => rfl
  | cons c cs ih =>
    rw [List.flatten_cons, List.length_append, h c (by simp),
      ih (fun x hx => h x (by simp [hx])), List.length_cons]
    ring

theorem xorBytes_length (a b : List Nat) : (xorBytes a b).length = min a.length b.length := by
  simp [xorBytes]

theorem xorBytes_cancel (a : List Nat) : ∀ b : List Nat, a.length = b.length →
    xorBytes (xorBytes a b) b = a := by
  induction a with
  | nil => intro b _; rfl
  | cons x xs ih =>
    intro b hlen
    cases b with
    | nil => simp at hlen
    | cons y ys =>
      simp only [xorBytes, List.zipWith_cons_cons]
      have hxor : (x.xor y).xor y = x := Nat.xor_cancel_right y x
      rw [hxor]
      have := ih ys (by simpa using hlen)
      simp only [xorBytes] at this
      rw [this]

theorem cbcEnc_all16 (E : List Nat → List Nat → List Nat) (key : List Nat)
    (hLen : ∀ k b, b.length = 16 → (E k b).length = 16) :
    ∀ (bs : List (List Nat)) (prev : List Nat), (∀ b ∈ bs, b.length = 16) →
    prev.length = 16 → ∀ c ∈ cbcEnc E key prev bs, c.length = 16 := by
  intro bs
  induction bs with
  | nil => intro prev _ _ c hc; simp [cbcEnc] at hc
  | cons b bs ih =>
    intro prev hbs hprev c hc
    have hb : b.length = 16 := hbs b (by simp)
    have hx : (xorBytes b prev).length = 16 := by
      rw [xorBytes_length, hb, hprev]
      omega
    simp only [cbcEnc] at hc
    rcases List.mem_cons.mp hc with h | h
    · subst h
      exact hLen key _ hx
    · exact ih (E key (xorBytes b prev)) (fun x hxs => hbs x (by simp [hxs]))
        (hLen key _ hx) c h

theorem cbcRoundtrip (E D : List Nat → List Nat → List Nat) (key : List Nat)
    (hInv : ∀ k b, b.length = 16 → D k (E k b) = b)
    (hLen : ∀ k b, b.length = 16 → (E k b).length = 16) :
    ∀ (bs : List (List Nat)) (prev : List Nat), (∀ b ∈ bs, b.length = 16) →
    prev.length = 16 → cbcDec D key prev (cbcEnc E key prev bs) = bs := by
  intro bs
  induction bs with
  | nil => intro prev _ _; rfl
  | cons b bs ih =>
    intro prev hbs hprev
    have hb : b.length = 16 := hbs b (by simp)
    have hx : (xorBytes b prev).length = 16 := by
      rw [xorBytes_length, hb, hprev]
      omega
    simp only [cbcEnc, cbcDec]
    rw [hInv key _ hx]
    rw [xorBytes_cancel b prev (by omega)]
    rw [ih (E key (xorBytes b prev)) (fun x hxs => hbs x (by simp [hxs]))
      (hLen key _ hx)]

theorem flatten_chunks_aux : ∀ (k : Nat) (l : List Nat), l.length ≤ k →
    (chunks l).flatten = l := by
  intro k
  induction k with
  | zero =>
    intro l hk
    have : l = [] := List.eq_nil_of_length_eq_zero (by omega)
    subst this
    simp [chunks]
  | succ k ih =>
    intro l hk
    cases l with
    | nil => simp [chunks]
    | cons x xs =>
      simp only [chunks, List.flatten_cons]
      rw [ih (xs.drop 15) (by
        simp only [List.length_drop]
        simp only [List.length_cons] at hk
        omega)]
      rw [List.cons_append, List.take_append_drop]

theorem flatten_chunks (l : List Nat) : (chunks l).flatten = l :=
  flatten_chunks_aux l.length l le_rfl

/-- C5: with the AES block cipher abstracted as an inverse pair `(E, D)` of
16-byte block maps and PBKDF2 as an arbitrary derivation function,
decrypting the envelope produced by `encrypt_data` with the same password
recovers the plaintext exactly. -/
theorem claim_C5 (E D kdf : List Nat → List Nat → List Nat)
    (hInv : ∀ k b, b.length = 16 → D k (E k b) = b)
    (hLen : ∀ k b, b.length = 16 → (E k b).length = 16)
    (data pw salt iv : List Nat) (hs : salt.length = 16) (hi : iv.length = 16) :
    decrypt_data D kdf (encrypt_data E kdf data pw salt iv) pw = Except.ok data := by
  have hpadmod : (pkcs7pad data).length % 16 = 0 := by
    simp only [pkcs7pad, List.length_append, List.length_replicate]
    omega
  have hblocks : ∀ b ∈ chunks (pkcs7pad data), b.length = 16 :=
    chunks_all16 (pkcs7pad data).length (pkcs7pad data) le_rfl hpadmod
  have hct16 : ∀ c ∈ cbcEnc E (kdf pw salt) iv (chunks (pkcs7pad data)), c.length = 16 :=
    cbcEnc_all16 E (kdf pw salt) hLen (chunks (pkcs7pad data)) iv hblocks hi
  set X := (cbcEnc E (kdf pw salt) iv (chunks (pkcs7pad data))).flatten with hX
  have hXmod : X.length % 16 = 0 := by
    rw [hX, flatten_len16 _ hct16]
    omega
  simp only [encrypt_data, decrypt_data]
  have h12 : ENCRYPTION_HEADER.length = 12 := rfl
  have hpref : ENCRYPTION_HEADER.isPrefixOf
      (ENCRYPTION_HEADER ++ salt ++ iv ++ X) = true := by
    rw [List.isPrefixOf_iff_prefix]
    rw [List.append_assoc, List.append_assoc]
    exact List.prefix_append _ _
  rw [if_pos hpref]
  have hdrop12 : (ENCRYPTION_HEADER ++ salt ++ iv ++ X).drop 12 =
      salt ++ (iv ++ X) := by
    rw [List.append_assoc, List.append_assoc, ← h12, List.drop_left]
  rw [hdrop12]
  have hsalt : (salt ++ (iv ++ X)).take 16 = salt := by
    rw [← hs, List.take_left]
  have hrest : (salt ++ (iv ++ X)).drop 16 = iv ++ X := by
    rw [← hs, List.drop_left]
  have hiv : ((salt ++ (iv ++ X)).drop 16).take 16 = iv := by
    rw [hrest, ← hi, List.take_left]
  have hct : (salt ++ (iv ++ X)).drop 32 = X := by
    rw [List.drop_append_eq_append_drop, List.drop_eq_nil_of_le (by omega),
      List.nil_append, hs]
    rw [(by norm_num : 32 - 16 = 16), ← hi, List.drop_left]
  rw [hsalt, hiv, hct]
  rw [if_pos hXmod]
  rw [hX, chunks_flatten _ hct16]
  rw [cbcRoundtrip E D (kdf pw salt) hInv hLen (chunks (pkcs7pad data)) iv hblocks hi]
  rw [flatten_chunks, pkcs7unpad_pad]

/-- Witness for C5 with the identity block cipher standing in for AES. -/
theorem claim_C5_witness :
    decrypt_data idE zeroKdf
      (encrypt_data idE zeroKdf [1, 2, 3] [9] (List.replicate 16 0)
        (List.replicate 16 7)) [9] = Except.ok [1, 2, 3] :=
  claim_C5 idE idE zeroKdf (fun _ _ _ => rfl) (fun _ _ hb => hb)
    [1, 2, 3] [9] (List.replicate 16 0) (List.replicate 16 7) rfl rfl

/-- C6: any blob that does not begin with the 12-byte magic marker makes
`decrypt_data` fail with the format error, for every password and every
cipher instantiation. -/
theorem claim_C6 (D kdf : List Nat → List Nat → List Nat) (blob pw : List Nat)
    (h : ENCRYPTION_HEADER.isPrefixOf blob = false) :
    decrypt_data D kdf blob pw = Except.error CryptoErr.formatError := by
  simp only [decrypt_data]
  rw [if_neg (by simp [h])]

/-- Witness for C6 at a concrete three-byte blob. -/
theorem claim_C6_witness :
    decrypt_data idE zeroKdf [0, 1, 2] [] = Except.error CryptoErr.formatError :=
  claim_C6 idE zeroKdf [0, 1, 2] [] (by decide)

/-! ### Archive lemmas -/

theorem extract_file_data_record {M : Type} (loads : List Nat → Option M)
    (dumps : M → List Nat) (hld : ∀ m, loads (dumps m) = some m)
    (m : M) (content : List Nat) (hm : (dumps m).length < 4294967296) :
    extract_file_data loads (prepare_file_data dumps m content) = some (m, content) := by
  simp only [extract_file_data, prepare_file_data]
  have h4 : (be4 (dumps m).length).length = 4 := rfl
  rw [List.append_assoc]
  have htake : (be4 (dumps m).length ++ (dumps m ++ content)).take 4 =
      be4 (dumps m).length := by
    rw [List.take_append_eq_append_take, List.take_of_length_le (by rw [h4])]
    rw [(by rw [h4] : 4 - (be4 (dumps m).length).length = 4 - 4)]
    simp
  rw [htake, fromBytesBE_be4 _ hm]
  have hdrop : (be4 (dumps m).length ++ (dumps m ++ content)).drop 4 =
      dumps m ++ content := by
    rw [List.drop_append_eq_append_drop, List.drop_eq_nil_of_le (by rw [h4])]
    rw [(by rw [h4] : 4 - (be4 (dumps m).length).length = 4 - 4)]
    simp
  rw [hdrop, List.take_left, hld m]
  have hdrop2 : (be4 (dumps m).length ++ (dumps m ++ content)).drop
      (4 + (dumps m).length) = content := by
    rw [List.drop_append_eq_append_drop, List.drop_eq_nil_of_le (by rw [h4]; omega)]
    rw [(by rw [h4] : 4 + (dumps m).length - (be4 (dumps m).length).length =
      4 + (dumps m).length - 4)]
    rw [(by omega : 4 + (dumps m).length - 4 = (dumps m).length)]
    rw [List.nil_append, List.drop_left]
  rw [hdrop2]

theorem unpackLoop_spec {M : Type} (loads : List Nat → Option M) :
    ∀ (blocks : List (List Nat)) (i : Nat) (pre : List Nat),
    blocks.length ≤ i → (∀ b ∈ blocks, b.length < 4294967296) →
    unpackLoop loads i pre.length
      (pre ++ (blocks.map (fun b => be4 b.length ++ b)).flatten) =
      blocks.filterMap (extract_file_data loads) := by
  intro blocks
  induction blocks with
  | nil =>
    intro i pre _ _
    cases i with
    | zero => rfl
    | succ i =>
      simp only [List.map_nil, List.flatten_nil, List.append_nil, unpackLoop]
      rw [if_pos le_rfl]
      rfl
  | cons b bs ih =>
    intro i pre hi hlen
    obtain ⟨i, rfl⟩ : ∃ j, i = j + 1 := by
      cases i with
      | zero => simp at hi
      | succ j => exact ⟨j, rfl⟩
    have hb32 : b.length < 4294967296 := hlen b (by simp)
    have h4 : (be4 b.length).length = 4 := rfl
    simp only [List.map_cons, List.flatten_cons, unpackLoop]
    have hnle : ¬((pre ++ ((be4 b.length ++ b) ++
        (bs.map (fun b => be4 b.length ++ b)).flatten)).length ≤ pre.length) := by
      simp only [List.length_append, h4]
      omega
    rw [if_neg hnle]
    have hdrop : (pre ++ ((be4 b.length ++ b) ++
        (bs.map (fun b => be4 b.length ++ b)).flatten)).drop pre.length =
        be4 b.length ++ (b ++ (bs.map (fun b => be4 b.length ++ b)).flatten) := by
      rw [List.drop_left, List.append_assoc]
    have hsize : fromBytesBE (((pre ++ ((be4 b.length ++ b) ++
        (bs.map (fun b => be4 b.length ++ b)).flatten)).drop pre.length).take 4) =
        b.length := by
      rw [hdrop]
      rw [List.take_append_eq_append_take, List.take_of_length_le (by rw [h4])]
      rw [(by rw [h4] : 4 - (be4 b.length).length = 4 - 4)]
      simp only [Nat.sub_self, List.take_zero, List.append_nil]
      exact fromBytesBE_be4 _ hb32
    rw [hsize]
    have hassoc : pre ++ ((be4 b.length ++ b) ++
        (bs.map (fun b => be4 b.length ++ b)).flatten) =
        (pre ++ be4 b.length) ++ (b ++ (bs.map (fun b => be4 b.length ++ b)).flatten) := by
      simp [List.append_assoc]
    have hblock : ((pre ++ ((be4 b.length ++ b) ++
        (bs.map (fun b => be4 b.length ++ b)).flatten)).drop (pre.length + 4)).take
        b.length = b := by
      rw [hassoc]
      rw [(by simp [h4] : pre.length + 4 = (pre ++ be4 b.length).length)]
      rw [List.drop_left, List.take_left]
    rw [hblock]
    have hassoc2 : pre ++ ((be4 b.length ++ b) ++
        (bs.map (fun b => be4 b.length ++ b)).flatten) =
        (pre ++ be4 b.length ++ b) ++ (bs.map (fun b => be4 b.length ++ b)).flatten := by
      simp [List.append_assoc]
    have hoff : pre.length + 4 + b.length = (pre ++ be4 b.length ++ b).length := by
      simp [h4]
      omega
    rw [hoff, hassoc2]
    rw [ih i (pre ++ be4 b.length ++ b) (by simpa using hi)
      (fun x hx => hlen x (by simp [hx]))]
    cases hcase : extract_file_data loads b with
    | none => simp [List.filterMap_cons, hcase]
    | some mc => simp [List.filterMap_cons, hcase]

theorem filterMap_records {M : Type} (loads : List Nat → Option M)
    (dumps : M → List Nat) (hld : ∀ m, loads (dumps m) = some m) :
    ∀ recs : List (M × List Nat), (∀ r ∈ recs, (dumps r.1).length < 4294967296) →
    (recs.map (fun r => prepare_file_data dumps r.1 r.2)).filterMap
      (extract_file_data loads) = recs := by
  intro recs
  induction recs with
  | nil => intro _; rfl
  | cons r rs ih =>
    intro hb
    obtain ⟨m, c⟩ := r
    have he := extract_file_data_record loads dumps hld m c (hb (m, c) (by simp))
    simp only [List.map_cons, List.filterMap_cons, he]
    rw [ih (fun x hx => hb x (by simp [hx]))]

theorem archive_count {M : Type} (loads : List Nat → Option M)
    (count : Nat) (hc : count < 4294967296) (blocks : List (List Nat)) :
    unpackArchive loads (packWithCount count blocks) =
      unpackLoop loads count 4 (packWithCount count blocks) := by
  simp only [unpackArchive, packWithCount]
  have h4 : (be4 count).length = 4 := rfl
  have hcount : fromBytesBE ((be4 count ++
      (blocks.map (fun b => be4 b.length ++ b)).flatten).take 4) = count := by
    rw [List.take_append_eq_append_take, List.take_of_length_le (by rw [h4])]
    rw [(by rw [h4] : 4 - (be4 count).length = 4 - 4)]
    simp only [Nat.sub_self, List.take_zero, List.append_nil]
    exact fromBytesBE_be4 _ hc
  rw [hcount]

theorem archive_unpack_spec {M : Type} (loads : List Nat → Option M)
    (count : Nat) (hc : count < 4294967296) (blocks : List (List Nat))
    (hi : blocks.length ≤ count) (hlen : ∀ b ∈ blocks, b.length < 4294967296) :
    unpackArchive loads (packWithCount count blocks) =
      blocks.filterMap (extract_file_data loads) := by
  rw [archive_count loads count hc blocks]
  have h4 : (4 : Nat) = (be4 count).length := rfl
  simp only [packWithCount]
  rw [h4]
  exact unpackLoop_spec loads blocks count (be4 count) hi hlen

/-- C7: packing any list of FileRecords (metadata serialized by the
abstract `dumps`, parsed back by `loads`) and unpacking the archive yields
exactly the same (metadata, content) pairs, in the original order. -/
theorem claim_C7 {M : Type} (loads : List Nat → Option M) (dumps : M → List Nat)
    (hld : ∀ m, loads (dumps m) = some m) (recs : List (M × List Nat))
    (hk : recs.length < 4294967296)
    (hrec : ∀ r ∈ recs, 4 + (dumps r.1).length + r.2.length < 4294967296) :
    unpackArchive loads
      (packRecords (recs.map (fun r => prepare_file_data dumps r.1 r.2))) = recs := by
  have hbounds : ∀ b ∈ recs.map (fun r => prepare_file_data dumps r.1 r.2),
      b.length < 4294967296 := by
    intro b hb
    obtain ⟨r, hr, rfl⟩ := List.mem_map.mp hb
    have hr32 := hrec r hr
    simp only [prepare_file_data, List.length_append]
    have h4 : (be4 (dumps r.1).length).length = 4 := rfl
    rw [h4]
    omega
  simp only [packRecords]
  rw [archive_unpack_spec loads _ (by simpa using hk) _ le_rfl hbounds]
  exact filterMap_records loads dumps hld recs
    (fun r hr => by have := hrec r hr; omega)

/-- Witness for C7: two Unit-metadata records round-trip through the
archive. -/
theorem claim_C7_witness :
    unpackArchive unitLoads (packRecords ([((), [7, 8]), ((), [])].map
      (fun r => prepare_file_data unitDumps r.1 r.2))) = [((), [7, 8]), ((), [])] :=
  claim_C7 unitLoads unitDumps (fun _ => rfl) [((), [7, 8]), ((), [])]
    (by decide) (by decide)

/-- C8: an archive whose count field declares more records than the buffer
holds yields exactly the records present, the loop stopping without error
once the offset reaches the end of the data. -/
theorem claim_C8 {M : Type} (loads : List Nat → Option M) (dumps : M → List Nat)
    (hld : ∀ m, loads (dumps m) = some m) (count : Nat)
    (recs : List (M × List Nat)) (hlt : recs.length < count)
    (hc : count < 4294967296)
    (hrec : ∀ r ∈ recs, 4 + (dumps r.1).length + r.2.length < 4294967296) :
    unpackArchive loads
      (packWithCount count (recs.map (fun r => prepare_file_data dumps r.1 r.2))) =
      recs := by
  have hbounds : ∀ b ∈ recs.map (fun r => prepare_file_data dumps r.1 r.2),
      b.length < 4294967296 := by
    intro b hb
    obtain ⟨r, hr, rfl⟩ := List.mem_map.mp hb
    have hr32 := hrec r hr
    simp only [prepare_file_data, List.length_append]
    have h4 : (be4 (dumps r.1).length).length = 4 := rfl
    rw [h4]
    omega
  rw [archive_unpack_spec loads count hc _ (by simpa using hlt.le) hbounds]
  exact filterMap_records loads dumps hld recs
    (fun r hr => by have := hrec r hr; omega)

/-- Witness for C8: a count of 5 over two complete record blocks yields
exactly those two records. -/
theorem claim_C8_witness :
    unpackArchive unitLoads (packWithCount 5 ([((), [1]), ((), [2, 3])].map
      (fun r => prepare_file_data unitDumps r.1 r.2))) = [((), [1]), ((), [2, 3])] :=
  claim_C8 unitLoads unitDumps (fun _ => rfl) 5 [((), [1]), ((), [2, 3])]
    (by decide) (by decide) (by decide)

/-- C9: a record block whose metadata fails to parse is skipped, and the
loop keeps unpacking the remaining blocks; the unpack result is the list of
successfully parsed records — the parse failure never propagates out. -/
theorem claim_C9 {M : Type} (loads : List Nat → Option M)
    (pre post : List (List Nat)) (bad : List Nat)
    (hbad : extract_file_data loads bad = none)
    (hlen : ∀ b ∈ pre ++ bad :: post, b.length < 4294967296)
    (hcnt : (pre ++ bad :: post).length < 4294967296) :
    unpackArchive loads (packRecords (pre ++ bad :: post)) =
      pre.filterMap (extract_file_data loads) ++
        post.filterMap (extract_file_data loads) := by
  simp only [packRecords]
  rw [archive_unpack_spec loads _ hcnt _ le_rfl hlen]
  rw [List.filterMap_append]
  simp only [List.filterMap_cons, hbad]

/-- Witness for C9: the middle block carries unparsable metadata and is
skipped; the two valid records survive. -/
theorem claim_C9_witness :
    unpackArchive unitLoads
      (packRecords [[0, 0, 0, 0, 7], [0, 0, 0, 1, 99], [0, 0, 0, 0, 5]]) =
      [((), [7]), ((), [5])] := by
  have h := claim_C9 unitLoads [[0, 0, 0, 0, 7]] [[0, 0, 0, 0, 5]] [0, 0, 0, 1, 99]
    (by decide) (by decide) (by decide)
  exact h.trans (by decide)

/-! ### Unique output filename lemmas -/

theorem uniqueLoop_spec (fs : FS) (base ext : String) :
    ∀ (fuel : Nat) (cur : String) (counter : Nat) (p : String),
    uniqueLoop fs base ext fuel cur counter = some p →
    fsExists fs p = false ∧
    (p = cur ∨ ∃ k, counter ≤ k ∧ p = base ++ "_" ++ toString k ++ ext) := by
  intro fuel
  induction fuel with
  | zero => intro cur counter p h; simp [uniqueLoop] at h
  | succ fuel ih =>
    intro cur counter p h
    simp only [uniqueLoop] at h
    by_cases hex : fsExists fs cur = true
    · rw [if_pos hex] at h
      obtain ⟨h1, h2⟩ := ih _ _ p h
      refine ⟨h1, Or.inr ?_⟩
      rcases h2 with h2 | ⟨k, hk, h2⟩
      · exact ⟨counter, le_refl _, h2⟩
      · exact ⟨k, by omega, h2⟩
    · rw [if_neg hex] at h
      obtain rfl := Option.some.inj h
      simp only [Bool.not_eq_true] at hex
      exact ⟨hex, Or.inl rfl⟩

/-- C10: whenever the unique-filename loop settles on a path, that path does
not exist in the directory (so no pre-existing file is overwritten), it is
either the original name or the original name with a numeric `_k` suffix
before the extension, the new content is readable at the chosen path, and
every other path reads exactly as before the write. -/
theorem claim_C10 (fs : FS) (base ext p : String) (content : List Nat)
    (h : uniquePath fs base ext = some p) :
    fsExists fs p = false ∧
    (p = base ++ ext ∨ ∃ k, 1 ≤ k ∧ p = base ++ "_" ++ toString k ++ ext) ∧
    fsRead (fsWrite fs p content) p = some content ∧
    ∀ q, q ≠ p → fsRead (fsWrite fs p content) q = fsRead fs q := by
  obtain ⟨h1, h2⟩ := uniqueLoop_spec fs base ext (fs.length + 1) (base ++ ext) 1 p h
  refine ⟨h1, h2, ?_, ?_⟩
  · simp [fsRead, fsWrite, List.find?]
  · intro q hq
    have hne : (p == q) = false := beq_eq_false_iff_ne.mpr (Ne.symm hq)
    simp [fsRead, fsWrite, List.find?, hne]

/-- Witness for C10: in a directory already holding `out/a.txt` and
`out/a_1.txt`, the loop picks `out/a_2.txt`; writing there leaves
`out/a.txt` unchanged. -/
theorem claim_C10_witness :
    fsExists fsDemo "out/a_2.txt" = false ∧
    fsRead (fsWrite fsDemo "out/a_2.txt" [9]) "out/a.txt" = some [1] := by
  refine ⟨(claim_C10 fsDemo "out/a" ".txt" "out/a_2.txt" [9] (by decide)).1, ?_⟩
  have h := (claim_C10 fsDemo "out/a" ".txt" "out/a_2.txt" [9] (by decide)).2.2.2
    "out/a.txt" (by decide)
  exact h.trans (by decide)
